import Mathlib

/-!
A verification development for the difficient diffing library.

The library computes structural diffs between two values of one type and
applies a diff to mutate a base value into the target.  We embed the
library shallowly: Rust values of all diffable types are collected into a
single inductive `Value`; the per-type diff result types
(`AtomicDiff`, `Id`, `DeepDiff`, tuple diffs, boxed diffs) are collected
into a single inductive `Diff` whose constructors are named after their
source counterparts; `diff`, `apply_to_base` and the top-level
`Diffable::apply` are translated function by function.
-/

/-- Apply-time error taxonomy, from `enum ApplyError` in the source. -/
inductive ApplyError where
  | MismatchingEnum
  | MissingKey
  | UnexpectedKey
deriving DecidableEq, Repr

/-- Modelled from the source: `f64` values, of which the diff code only uses
IEEE-754 equality (`self == other`).  A rational carrier plus a separate NaN
point captures exactly the facts used: ordinary numbers compare by value and
NaN compares unequal to everything, including itself. -/
inductive F64 where
  | num (q : Rat)
  | nan
deriving DecidableEq, Repr

/-- IEEE-754 equality on the `f64` model: NaN is not equal to itself. -/
def F64.beq : F64 → F64 → Bool
  | .num a, .num b => a == b
  | _, _ => false

/-- The universe of diffable values: one constructor per family of types the
library implements `Diffable` for.  `vint` stands for the integer primitives
(and `bool`/string payloads get their own constructors), `vvec` for `Vec<T>`,
`vmap` for `HashMap`/`BTreeMap` with integer-like keys (association list),
`vtup` for two-element tuples, `vstrukt` for a derived struct's field list
(named or positional), and `venum` for a derived enum value as a variant tag
plus that variant's field list. -/
inductive Value where
  | vint (n : Int)
  | vbool (b : Bool)
  | vstr (chars : List Nat)
  | vfloat (f : F64)
  | vunit
  | vvec (xs : List Value)
  | vopt (o : Option Value)
  | vbox (v : Value)
  | vmap (m : List (Int × Value))
  | vtup (a b : Value)
  | vstrukt (fs : List Value)
  | venum (tag : Nat) (fs : List Value)

mutual
/-- Diff results, merging the source's per-type diff representations:
`atomicUnchanged`/`atomicReplaced` are `AtomicDiff::{Unchanged,Replaced}`,
`idm` is the `Id` marker used for unit types, `deepUnchanged`/`deepPatched`/
`deepReplaced` are `DeepDiff::{Unchanged,Patched,Replaced}`, `tup` is the
tuple-of-child-diffs representation from `tuple_impl`, and `boxd` is
`Box<T::Diff>`. -/
inductive Diff where
  | atomicUnchanged
  | atomicReplaced (v : Value)
  | idm
  | deepUnchanged
  | deepPatched (p : Patch)
  | deepReplaced (v : Value)
  | tup (a b : Diff)
  | boxd (d : Diff)

/-- The patch payloads carried by `deepPatched`: `Option<T::Diff>` for
options, the keyed entry map for associative containers, and the generated
structurally-parallel patch types for derived structs and enums. -/
inductive Patch where
  | opt (o : Option Diff)
  | map (entries : List (Int × KvDiff))
  | strukt (ds : List Diff)
  | enum (tag : Nat) (ds : List Diff)

/-- Per-key entry of a map patch, from `enum KvDiff` in the source. -/
inductive KvDiff where
  | removed
  | inserted (v : Value)
  | diff (d : Diff)
end

-- *** Association-list primitives standing for the HashMap/BTreeMap API ***

/-- `HashMap::get`: first value stored under the key, if any. -/
def lookupA : List (Int × α) → Int → Option α
  | [], _ => none
  | (k, v) :: rest, key => if key == k then some v else lookupA rest key

/-- `HashMap::contains_key`. -/
def containsKey (m : List (Int × α)) (key : Int) : Bool :=
  (lookupA m key).isSome

/-- `HashMap::insert`: replaces the value stored under the key if present
(the in-place update of `get_mut` is modelled the same way), otherwise
appends the binding. -/
def insertA : List (Int × α) → Int → α → List (Int × α)
  | [], key, v => [(key, v)]
  | (k, w) :: rest, key, v =>
    if key == k then (k, v) :: rest else (k, w) :: insertA rest key v

/-- `HashMap::remove`. -/
def removeA : List (Int × α) → Int → List (Int × α)
  | [], _ => []
  | (k, w) :: rest, key => if key == k then rest else (k, w) :: removeA rest key

/-- Key uniqueness, the invariant every real `HashMap`/`BTreeMap` maintains. -/
def nodupKeysB : List (Int × α) → Bool
  | [] => true
  | (k, _) :: rest => !(containsKey rest k) && nodupKeysB rest

-- *** The Replace trait ***

/-- `Replace::is_unchanged`, per impl: always true for `Id`, constructor
tests for `AtomicDiff` and `DeepDiff`, all-components for tuples, and
delegation for boxes. -/
def isUnchanged : Diff → Bool
  | .atomicUnchanged => true
  | .atomicReplaced _ => false
  | .idm => true
  | .deepUnchanged => true
  | .deepPatched _ => false
  | .deepReplaced _ => false
  | .tup a b => isUnchanged a && isUnchanged b
  | .boxd d => isUnchanged d

/-- `Replace::is_replaced`, per impl: always false for `Id`, constructor
tests for `AtomicDiff` and `DeepDiff`, all-components for tuples, and
delegation for boxes. -/
def isReplaced : Diff → Bool
  | .atomicUnchanged => false
  | .atomicReplaced _ => true
  | .idm => false
  | .deepUnchanged => false
  | .deepPatched _ => false
  | .deepReplaced _ => true
  | .tup a b => isReplaced a && isReplaced b
  | .boxd d => isReplaced d

-- *** Structural equality (derived PartialEq, used by the atomic diffs) ***

mutual
/-- Rust `==` on diffable values: derived structural `PartialEq` for
aggregates, element-wise comparison for `Vec`, IEEE equality for floats
(via `F64.beq`), and the `HashMap`/`BTreeMap` `PartialEq` (same length and
every key of the left map bound to an equal value in the right map). -/
def beq : Value → Value → Bool
  | .vint a, .vint b => a == b
  | .vbool a, .vbool b => a == b
  | .vstr a, .vstr b => a == b
  | .vfloat a, .vfloat b => F64.beq a b
  | .vunit, .vunit => true
  | .vvec xs, .vvec ys => beqList xs ys
  | .vopt none, .vopt none => true
  | .vopt (some a), .vopt (some b) => beq a b
  | .vbox a, .vbox b => beq a b
  | .vmap a, .vmap b => a.length == b.length && beqKvs b a
  | .vtup a c, .vtup b d => beq a b && beq c d
  | .vstrukt fs, .vstrukt gs => beqList fs gs
  | .venum i fs, .venum j gs => i == j && beqList fs gs
  | _, _ => false

/-- Element-wise equality of two sequences of values. -/
def beqList : List Value → List Value → Bool
  | [], [] => true
  | a :: as_, b :: bs => beq a b && beqList as_ bs
  | _, _ => false

/-- Every binding of the second list maps, in `other`, to an equal value. -/
def beqKvs (other : List (Int × Value)) : List (Int × Value) → Bool
  | [] => true
  | (k, v) :: rest =>
    (match lookupA other k with
     | some w => beq v w
     | none => false) && beqKvs other rest
end

-- *** diff ***

/-- The second loop of the map diff (`kv_map_impl`), which is meant to emit
`Inserted` entries for keys of the target absent from the base.  Translated
faithfully from the source: the loop iterates the target's entries and tests
`!other.contains_key(k)` against the target (`other`) itself, so the body
never runs. -/
def mapInsLoop (other : List (Int × Value)) :
    List (Int × Value) → List (Int × KvDiff) → Bool → Bool →
    List (Int × KvDiff) × Bool × Bool
  | [], ds, u, r => (ds, u, r)
  | (k, v) :: rest, ds, u, r =>
    if !(containsKey other k) then
      mapInsLoop other rest (insertA ds k (.inserted v)) false false
    else
      mapInsLoop other rest ds u r

mutual
/-- `Diffable::diff`, one arm per impl in the source: primitives and `Vec`
compare by `==` and yield an `AtomicDiff`; `()` yields the `Id` marker;
options, maps, boxes and tuples follow their container impls; derived
structs and enums follow the code emitted by the derive macro (`diff_body`).
Arms pairing two different kinds of value cannot arise in the source, where
both arguments share one type; the final catch-all totalizes the function
and mirrors the derive macro's mismatched-variant arm. -/
def diff : Value → Value → Diff
  | .vint a, .vint b =>
    if a == b then .atomicUnchanged else .atomicReplaced (.vint b)
  | .vbool a, .vbool b =>
    if a == b then .atomicUnchanged else .atomicReplaced (.vbool b)
  | .vstr a, .vstr b =>
    if a == b then .atomicUnchanged else .atomicReplaced (.vstr b)
  | .vfloat a, .vfloat b =>
    if F64.beq a b then .atomicUnchanged else .atomicReplaced (.vfloat b)
  | .vunit, .vunit => .idm
  | .vvec xs, .vvec ys =>
    if xs.length != ys.length then .atomicReplaced (.vvec ys)
    else if beqList xs ys then .atomicUnchanged
    else .atomicReplaced (.vvec ys)
  | .vopt none, .vopt none => .deepUnchanged
  | .vopt none, .vopt (some r) => .deepReplaced (.vopt (some r))
  | .vopt (some _), .vopt none => .deepReplaced (.vopt none)
  | .vopt (some l), .vopt (some r) =>
    let d := diff l r
    if isUnchanged d then .deepUnchanged
    else if isReplaced d then .deepReplaced (.vopt (some r))
    else .deepPatched (.opt (some d))
  | .vbox a, .vbox b => .boxd (diff a b)
  | .vmap m, .vmap mt =>
    let s := mapDiffGo mt m [] true true
    let s2 := mapInsLoop mt mt s.1 s.2.1 s.2.2
    if s2.2.1 then .deepUnchanged
    else if s2.2.2 then .deepReplaced (.vmap mt)
    else .deepPatched (.map s2.1)
  | .vtup a c, .vtup b d => .tup (diff a b) (diff c d)
  | .vstrukt fs, .vstrukt gs =>
    let ds := diffFields fs gs
    if ds.all isUnchanged then .deepUnchanged
    else if ds.all isReplaced then .deepReplaced (.vstrukt gs)
    else .deepPatched (.strukt ds)
  | .venum i fs, .venum j gs =>
    if i == j then
      let ds := diffFields fs gs
      if ds.all isUnchanged then .deepUnchanged
      else if ds.all isReplaced then .deepReplaced (.venum j gs)
      else .deepPatched (.enum i ds)
    else .deepReplaced (.venum j gs)
  | _, b => .deepReplaced b

/-- Field-wise child diffs of an aggregate, in declaration order (the field
lists always have equal length in the typed source). -/
def diffFields : List Value → List Value → List Diff
  | a :: as_, b :: bs => diff a b :: diffFields as_ bs
  | _, _ => []

/-- First loop of the map diff (`kv_map_impl`): iterate the base's entries;
a key absent from the target records `Removed` and clears both flags; a key
whose value diff is unchanged records nothing and clears `all_replaced`;
otherwise the child diff is recorded and `all_replaced` is and-ed with its
replaced-ness while `all_unchanged` is cleared. -/
def mapDiffGo (other : List (Int × Value)) :
    List (Int × Value) → List (Int × KvDiff) → Bool → Bool →
    List (Int × KvDiff) × Bool × Bool
  | [], ds, u, r => (ds, u, r)
  | (k, v) :: rest, ds, u, r =>
    match lookupA other k with
    | none => mapDiffGo other rest (insertA ds k .removed) false false
    | some w =>
      let d := diff v w
      if isUnchanged d then mapDiffGo other rest ds u false
      else mapDiffGo other rest (insertA ds k (.diff d)) false (r && isReplaced d)
end

-- *** The apply engine ***

mutual
/-- `Apply::apply_to_base` for diff results, threading the mutable target
and the shared error sink: `Unchanged` and the `Id` marker are no-ops, the
replaced states overwrite the target with the referenced value, `Patched`
dispatches into the patch, tuples apply component-wise in order, and boxes
delegate to the pointee.  Arms pairing a diff with a target of a different
kind cannot arise in the typed source and are modelled as no-ops. -/
def applyToBase : Diff → Value → List ApplyError →
    Value × List ApplyError
  | .atomicUnchanged, v, es => (v, es)
  | .atomicReplaced r, _, es => (r, es)
  | .idm, v, es => (v, es)
  | .deepUnchanged, v, es => (v, es)
  | .deepReplaced r, _, es => (r, es)
  | .deepPatched p, v, es => patchApplyToBase p v es
  | .tup da db, .vtup a b, es =>
    let ra := applyToBase da a es
    let rb := applyToBase db b ra.2
    (.vtup ra.1 rb.1, rb.2)
  | .boxd d, .vbox v, es =>
    let r := applyToBase d v es
    (.vbox r.1, r.2)
  | _, v, es => (v, es)

/-- `Apply::apply_to_base` for the patch payloads: an option patch recurses
when both the patch and the target hold `Some` and otherwise records
`MismatchingEnum` without mutating; a map patch runs the keyed-entry loop;
derived struct patches apply each child to the corresponding field in
declaration order; derived enum patches recurse field-wise when the patch's
variant tag matches the target's current variant and otherwise record
`MismatchingEnum` without mutating. -/
def patchApplyToBase : Patch → Value → List ApplyError →
    Value × List ApplyError
  | .opt o, .vopt s, es =>
    (match o, s with
     | some d, some v =>
       let r := applyToBase d v es
       (.vopt (some r.1), r.2)
     | _, _ => (.vopt s, es ++ [.MismatchingEnum]))
  | .map entries, .vmap m, es =>
    let r := kvApplyToBase entries m es
    (.vmap r.1, r.2)
  | .strukt ds, .vstrukt fs, es =>
    let r := fieldsApplyToBase ds fs es
    (.vstrukt r.1, r.2)
  | .enum i ds, .venum j fs, es =>
    if i == j then
      let r := fieldsApplyToBase ds fs es
      (.venum j r.1, r.2)
    else (.venum j fs, es ++ [.MismatchingEnum])
  | _, v, es => (v, es)

/-- The keyed-entry loop of `kv_map_impl`'s `apply_to_base`: `Removed`
removes the key, recording `MissingKey` when it was absent; `Inserted`
inserts the key (`HashMap::insert`, which replaces any existing value),
recording `UnexpectedKey` when the key was already present; `Diff` looks the
key up and recurses into the stored value, recording `MissingKey` when the
key is absent. -/
def kvApplyToBase : List (Int × KvDiff) → List (Int × Value) →
    List ApplyError → List (Int × Value) × List ApplyError
  | [], m, es => (m, es)
  | (k, e) :: rest, m, es =>
    match e with
    | .removed =>
      match lookupA m k with
      | some _ => kvApplyToBase rest (removeA m k) es
      | none => kvApplyToBase rest m (es ++ [.MissingKey])
    | .inserted v =>
      match lookupA m k with
      | some _ => kvApplyToBase rest (insertA m k v) (es ++ [.UnexpectedKey])
      | none => kvApplyToBase rest (insertA m k v) es
    | .diff d =>
      match lookupA m k with
      | some v0 =>
        let r := applyToBase d v0 es
        kvApplyToBase rest (insertA m k r.1) r.2
      | none => kvApplyToBase rest m (es ++ [.MissingKey])

/-- Field-wise apply of a derived aggregate patch, in the same fixed field
order used for diffing (the two lists always have equal length in the typed
source). -/
def fieldsApplyToBase : List Diff → List Value → List ApplyError →
    List Value × List ApplyError
  | [], fs, es => (fs, es)
  | _, [], es => ([], es)
  | d :: ds, f :: fs, es =>
    let r := applyToBase d f es
    let rs := fieldsApplyToBase ds fs r.2
    (r.1 :: rs.1, rs.2)
end

/-- The provided top-level `Diffable::apply`: run `apply_to_base` with a
fresh error sink and return success exactly when the sink stayed empty,
otherwise the accumulated error collection. -/
def applyDiff (v : Value) (d : Diff) : Except (List ApplyError) Value :=
  let r := applyToBase d v []
  if r.2.isEmpty then .ok r.1 else .error r.2

-- *** Side conditions for value well-formedness ***

mutual
/-- Well-formedness: every map contained in the value has pairwise-distinct
keys, as every real `HashMap`/`BTreeMap` does by construction. -/
def wfV : Value → Bool
  | .vint _ => true
  | .vbool _ => true
  | .vstr _ => true
  | .vfloat _ => true
  | .vunit => true
  | .vvec xs => wfList xs
  | .vopt none => true
  | .vopt (some v) => wfV v
  | .vbox v => wfV v
  | .vmap m => nodupKeysB m && wfKvs m
  | .vtup a b => wfV a && wfV b
  | .vstrukt fs => wfList fs
  | .venum _ fs => wfList fs

/-- All members of a list of values are well-formed. -/
def wfList : List Value → Bool
  | [] => true
  | v :: rest => wfV v && wfList rest

/-- All stored values of a map are well-formed. -/
def wfKvs : List (Int × Value) → Bool
  | [] => true
  | (_, v) :: rest => wfV v && wfKvs rest
end

mutual
/-- No `f64` NaN occurs anywhere in the value. -/
def nanFree : Value → Bool
  | .vint _ => true
  | .vbool _ => true
  | .vstr _ => true
  | .vfloat (.num _) => true
  | .vfloat .nan => false
  | .vunit => true
  | .vvec xs => nanFreeList xs
  | .vopt none => true
  | .vopt (some v) => nanFree v
  | .vbox v => nanFree v
  | .vmap m => nanFreeKvs m
  | .vtup a b => nanFree a && nanFree b
  | .vstrukt fs => nanFreeList fs
  | .venum _ fs => nanFreeList fs

/-- No member of the list contains a NaN. -/
def nanFreeList : List Value → Bool
  | [] => true
  | v :: rest => nanFree v && nanFreeList rest

/-- No stored value of the map contains a NaN. -/
def nanFreeKvs : List (Int × Value) → Bool
  | [] => true
  | (_, v) :: rest => nanFree v && nanFreeKvs rest
end

/-- The condition under which a base entry records nothing in the map diff:
its key is found in the target and the value diff is unchanged. -/
def entryUnchanged (other : List (Int × Value)) (p : Int × Value) : Bool :=
  match lookupA other p.1 with
  | some w => isUnchanged (diff p.2 w)
  | none => false

/-- The condition under which a base entry keeps the `all_replaced` flag
alive: its key is found in the target and the value diff is recorded
(not unchanged) and fully replaced. -/
def entryReplaced (other : List (Int × Value)) (p : Int × Value) : Bool :=
  match lookupA other p.1 with
  | some w => !isUnchanged (diff p.2 w) && isReplaced (diff p.2 w)
  | none => false

/-- The keyed-entry map the map diff records: the entries of the first loop;
the second loop (which was meant to add `Inserted` entries) never fires. -/
def mapRecorded (m mt : List (Int × Value)) : List (Int × KvDiff) :=
  let s := mapDiffGo mt m [] true true
  (mapInsLoop mt mt s.1 s.2.1 s.2.2).1

/-- Does a keyed entry record an insertion? -/
def isInsertedKv : KvDiff → Bool
  | .inserted _ => true
  | _ => false

-- *** Basic lemmas ***

/-- A replaced diff is never simultaneously unchanged: the two `Replace`
predicates are mutually exclusive on every diff the library builds. -/
theorem isReplaced_not_isUnchanged :
    ∀ d : Diff, isReplaced d = true → isUnchanged d = false
  | .atomicUnchanged => by simp [isReplaced]
  | .atomicReplaced _ => by simp [isUnchanged]
  | .idm => by simp [isReplaced]
  | .deepUnchanged => by simp [isReplaced]
  | .deepPatched _ => by simp [isUnchanged]
  | .deepReplaced _ => by simp [isUnchanged]
  | .tup a b => by
    simp only [isReplaced, isUnchanged, Bool.and_eq_true, Bool.and_eq_false_iff]
    intro h
    exact Or.inl (isReplaced_not_isUnchanged a h.1)
  | .boxd d => by
    simp only [isReplaced, isUnchanged]
    exact isReplaced_not_isUnchanged d

theorem lookupA_insertA_self (m : List (Int × α)) (k : Int) (v : α) :
    lookupA (insertA m k v) k = some v := by
  induction m with
  | nil => simp [insertA, lookupA]
  | cons p rest ih =>
    obtain ⟨k2, w⟩ := p
    by_cases h : k = k2
    · subst h; simp [insertA, lookupA]
    · simp [insertA, lookupA, h, ih]

theorem containsKey_of_mem {m : List (Int × α)} {k : Int} {v : α}
    (h : (k, v) ∈ m) : containsKey m k = true := by
  induction m with
  | nil => simp at h
  | cons p rest ih =>
    obtain ⟨k2, w⟩ := p
    rcases List.mem_cons.mp h with h1 | h1
    · cases h1; simp [containsKey, lookupA]
    · by_cases hk : k = k2
      · subst hk; simp [containsKey, lookupA]
      · simp only [containsKey, lookupA, beq_iff_eq, if_neg hk]
        exact ih h1

theorem lookupA_eq_of_mem_nodup {m : List (Int × α)} {k : Int} {v : α}
    (hn : nodupKeysB m = true) (h : (k, v) ∈ m) : lookupA m k = some v := by
  induction m with
  | nil => simp at h
  | cons p rest ih =>
    obtain ⟨k2, w⟩ := p
    simp only [nodupKeysB, Bool.and_eq_true, Bool.not_eq_true'] at hn
    rcases List.mem_cons.mp h with h1 | h1
    · cases h1; simp [lookupA]
    · have hk : k ≠ k2 := by
        intro he
        subst he
        rw [containsKey_of_mem h1] at hn
        exact absurd hn.1 (by simp)
      simp only [lookupA, beq_iff_eq, if_neg hk]
      exact ih hn.2 h1

theorem mapInsLoop_noop (other : List (Int × Value)) :
    ∀ (l : List (Int × Value)) (ds : List (Int × KvDiff)) (u r : Bool),
    (∀ p ∈ l, containsKey other p.1 = true) →
    mapInsLoop other l ds u r = (ds, u, r) := by
  intro l
  induction l with
  | nil => intro ds u r _; simp [mapInsLoop]
  | cons p rest ih =>
    intro ds u r h
    obtain ⟨k, v⟩ := p
    have hk : containsKey other k = true := h (k, v) (by simp)
    simp only [mapInsLoop, hk, Bool.not_true, Bool.false_eq_true, if_false]
    exact ih ds u r (fun q hq => h q (by simp [hq]))

/-- The second loop of the map diff never does anything: every key it
iterates is a key of the very map it tests membership in. -/
theorem mapInsLoop_self (other : List (Int × Value))
    (ds : List (Int × KvDiff)) (u r : Bool) :
    mapInsLoop other other ds u r = (ds, u, r) := by
  refine mapInsLoop_noop other other ds u r ?_
  intro p hp
  obtain ⟨k, v⟩ := p
  exact containsKey_of_mem hp

-- *** Characterizing the map diff loops ***

theorem mapDiffGo_allU (other : List (Int × Value)) :
    ∀ (l : List (Int × Value)) (ds : List (Int × KvDiff)) (u r : Bool),
    (mapDiffGo other l ds u r).2.1 = (u && l.all (entryUnchanged other)) := by
  intro l
  induction l with
  | nil => intro ds u r; simp [mapDiffGo]
  | cons p rest ih =>
    intro ds u r
    obtain ⟨k, v⟩ := p
    simp only [mapDiffGo, List.all_cons]
    cases hl : lookupA other k with
    | none =>
      simp [ih, entryUnchanged, hl]
    | some w =>
      by_cases hu : isUnchanged (diff v w) = true
      · simp [hu, ih, entryUnchanged, hl]
      · simp only [Bool.not_eq_true] at hu
        simp [hu, ih, entryUnchanged, hl]

theorem mapDiffGo_allR (other : List (Int × Value)) :
    ∀ (l : List (Int × Value)) (ds : List (Int × KvDiff)) (u r : Bool),
    (mapDiffGo other l ds u r).2.2 = (r && l.all (entryReplaced other)) := by
  intro l
  induction l with
  | nil => intro ds u r; simp [mapDiffGo]
  | cons p rest ih =>
    intro ds u r
    obtain ⟨k, v⟩ := p
    simp only [mapDiffGo, List.all_cons]
    cases hl : lookupA other k with
    | none =>
      simp [ih, entryReplaced, hl]
    | some w =>
      by_cases hu : isUnchanged (diff v w) = true
      · simp [hu, ih, entryReplaced, hl]
      · simp only [Bool.not_eq_true] at hu
        simp only [hu, Bool.false_eq_true, if_false, ih, entryReplaced, hl]
        cases r <;> cases isReplaced (diff v w) <;> simp

theorem mapDiffGo_entries_of_allU (other : List (Int × Value)) :
    ∀ (l : List (Int × Value)) (ds : List (Int × KvDiff)) (u r : Bool),
    l.all (entryUnchanged other) = true →
    (mapDiffGo other l ds u r).1 = ds := by
  intro l
  induction l with
  | nil => intro ds u r _; simp [mapDiffGo]
  | cons p rest ih =>
    intro ds u r h
    obtain ⟨k, v⟩ := p
    simp only [List.all_cons, Bool.and_eq_true] at h
    have h1 := h.1
    simp only [entryUnchanged] at h1
    cases hl : lookupA other k with
    | none => rw [hl] at h1; simp at h1
    | some w =>
      rw [hl] at h1
      simp only [mapDiffGo, hl]
      rw [if_pos h1]
      exact ih ds u false h.2

theorem insertA_length_ge (m : List (Int × α)) (k : Int) (v : α) :
    m.length ≤ (insertA m k v).length := by
  induction m with
  | nil => simp [insertA]
  | cons p rest ih =>
    obtain ⟨k2, w⟩ := p
    by_cases h : k = k2
    · subst h; simp [insertA]
    · simp only [insertA, beq_iff_eq, if_neg h, List.length_cons]
      omega

theorem insertA_length_fresh (m : List (Int × α)) (k : Int) (v : α)
    (h : containsKey m k = false) :
    (insertA m k v).length = m.length + 1 := by
  induction m with
  | nil => simp [insertA]
  | cons p rest ih =>
    obtain ⟨k2, w⟩ := p
    simp only [containsKey, lookupA, beq_iff_eq] at h
    by_cases hk : k = k2
    · rw [if_pos hk] at h; simp at h
    · rw [if_neg hk] at h
      simp only [insertA, beq_iff_eq, if_neg hk, List.length_cons]
      rw [ih h]

theorem mapDiffGo_entries_length_ge (other : List (Int × Value)) :
    ∀ (l : List (Int × Value)) (ds : List (Int × KvDiff)) (u r : Bool),
    ds.length ≤ (mapDiffGo other l ds u r).1.length := by
  intro l
  induction l with
  | nil => intro ds u r; simp [mapDiffGo]
  | cons p rest ih =>
    intro ds u r
    obtain ⟨k, v⟩ := p
    simp only [mapDiffGo]
    cases hl : lookupA other k with
    | none =>
      calc ds.length ≤ (insertA ds k .removed).length := insertA_length_ge ds k _
        _ ≤ _ := ih _ _ _
    | some w =>
      by_cases hu : isUnchanged (diff v w) = true
      · simp only [hu, if_true]; exact ih ds u false
      · simp only [Bool.not_eq_true] at hu
        simp only [hu, Bool.false_eq_true, if_false]
        calc ds.length ≤ (insertA ds k (.diff (diff v w))).length :=
              insertA_length_ge ds k _
          _ ≤ _ := ih _ _ _

theorem containsKey_insertA (m : List (Int × α)) (k k2 : Int) (v : α) :
    containsKey (insertA m k v) k2 = (k2 == k || containsKey m k2) := by
  induction m with
  | nil =>
    simp only [insertA, containsKey, lookupA]
    by_cases h : k2 = k <;> simp [h]
  | cons p rest ih =>
    obtain ⟨k3, w⟩ := p
    by_cases h : k = k3
    · subst h
      simp only [insertA, beq_self_eq_true, if_true, containsKey, lookupA]
      by_cases h2 : k2 = k <;> simp [h2]
    · simp only [insertA, beq_iff_eq, if_neg h, containsKey, lookupA]
      by_cases h2 : k2 = k3
      · simp [h2]
      · simp only [beq_iff_eq, if_neg h2]
        exact ih

theorem mapDiffGo_entries_ne_of_not_allU (other : List (Int × Value)) :
    ∀ (l : List (Int × Value)) (ds : List (Int × KvDiff)) (u r : Bool),
    nodupKeysB l = true →
    (∀ p ∈ l, containsKey ds p.1 = false) →
    l.all (entryUnchanged other) = false →
    ds.length < (mapDiffGo other l ds u r).1.length := by
  intro l
  induction l with
  | nil => intro ds u r _ _ h; simp at h
  | cons p rest ih =>
    intro ds u r hnd hfresh hall
    obtain ⟨k, v⟩ := p
    simp only [nodupKeysB, Bool.and_eq_true, Bool.not_eq_true'] at hnd
    have hfk : containsKey ds k = false := hfresh (k, v) (by simp)
    have hfresh2 : ∀ e : KvDiff, ∀ p ∈ rest, containsKey (insertA ds k e) p.1 = false := by
      intro e p hp
      rw [containsKey_insertA]
      have h1 : containsKey ds p.1 = false := hfresh p (by simp [hp])
      have h2 : p.1 ≠ k := by
        intro he
        obtain ⟨k2, w2⟩ := p
        simp only at he
        subst he
        rw [containsKey_of_mem hp] at hnd
        exact absurd hnd.1 (by simp)
      simp [h1, h2]
    simp only [List.all_cons, Bool.and_eq_false_iff] at hall
    simp only [mapDiffGo]
    cases hl : lookupA other k with
    | none =>
      have hlen : (insertA ds k KvDiff.removed).length = ds.length + 1 :=
        insertA_length_fresh ds k _ hfk
      calc ds.length < (insertA ds k KvDiff.removed).length := by omega
        _ ≤ _ := mapDiffGo_entries_length_ge other rest (insertA ds k .removed) false false
    | some w =>
      by_cases hu : isUnchanged (diff v w) = true
      · simp only [hu, if_true]
        have hall2 : rest.all (entryUnchanged other) = false := by
          rcases hall with h1 | h1
          · exfalso
            simp only [entryUnchanged, hl, hu] at h1
            exact absurd h1 (by simp)
          · exact h1
        exact ih ds u false hnd.2 (fun q hq => hfresh q (by simp [hq])) hall2
      · simp only [Bool.not_eq_true] at hu
        simp only [hu, Bool.false_eq_true, if_false]
        have hlen : (insertA ds k (KvDiff.diff (diff v w))).length = ds.length + 1 :=
          insertA_length_fresh ds k _ hfk
        calc ds.length < (insertA ds k (KvDiff.diff (diff v w))).length := by omega
          _ ≤ _ := mapDiffGo_entries_length_ge other rest
            (insertA ds k (.diff (diff v w))) false (r && isReplaced (diff v w))

theorem mapRecorded_eq (m mt : List (Int × Value)) :
    mapRecorded m mt = (mapDiffGo mt m [] true true).1 := by
  simp [mapRecorded, mapInsLoop_self]

-- *** Error accumulation: apply only ever appends to the shared sink ***

mutual
/-- Running `apply_to_base` with a pre-populated error sink neither changes
the resulting value nor touches the incoming errors: the traversal only
appends to the sink and never aborts. -/
theorem applyToBase_split :
    ∀ (d : Diff) (v : Value) (es1 es2 : List ApplyError),
    applyToBase d v (es1 ++ es2)
      = ((applyToBase d v es2).1, es1 ++ (applyToBase d v es2).2)
  | .atomicUnchanged, v, es1, es2 => by simp [applyToBase]
  | .atomicReplaced r, v, es1, es2 => by simp [applyToBase]
  | .idm, v, es1, es2 => by simp [applyToBase]
  | .deepUnchanged, v, es1, es2 => by simp [applyToBase]
  | .deepReplaced r, v, es1, es2 => by simp [applyToBase]
  | .deepPatched p, v, es1, es2 => by
    simpa only [applyToBase] using patchApplyToBase_split p v es1 es2
  | .tup da db, v, es1, es2 => by
    have iha := applyToBase_split da
    have ihb := applyToBase_split db
    cases v <;> simp [applyToBase, iha, ihb, List.append_assoc]
  | .boxd d, v, es1, es2 => by
    have ih := applyToBase_split d
    cases v <;> simp [applyToBase, ih]

/-- Append-splitting for the patch-level apply. -/
theorem patchApplyToBase_split :
    ∀ (p : Patch) (v : Value) (es1 es2 : List ApplyError),
    patchApplyToBase p v (es1 ++ es2)
      = ((patchApplyToBase p v es2).1, es1 ++ (patchApplyToBase p v es2).2)
  | .opt o, v, es1, es2 => by
    cases v with
    | vopt s =>
      cases o with
      | none => cases s <;> simp [patchApplyToBase, List.append_assoc]
      | some d =>
        have ih := applyToBase_split d
        cases s <;> simp [patchApplyToBase, ih, List.append_assoc]
    | _ => simp [patchApplyToBase]
  | .map entries, v, es1, es2 => by
    have ih := kvApplyToBase_split entries
    cases v <;> simp [patchApplyToBase, ih]
  | .strukt ds, v, es1, es2 => by
    have ih := fieldsApplyToBase_split ds
    cases v <;> simp [patchApplyToBase, ih]
  | .enum i ds, v, es1, es2 => by
    have ih := fieldsApplyToBase_split ds
    cases v <;> simp [patchApplyToBase, ih, List.append_assoc]
    case venum j fs =>
      by_cases hij : i = j <;> simp [hij, ih, List.append_assoc]

/-- Append-splitting for the keyed-entry loop of the map apply. -/
theorem kvApplyToBase_split :
    ∀ (entries : List (Int × KvDiff)) (m : List (Int × Value))
      (es1 es2 : List ApplyError),
    kvApplyToBase entries m (es1 ++ es2)
      = ((kvApplyToBase entries m es2).1, es1 ++ (kvApplyToBase entries m es2).2)
  | [], m, es1, es2 => by simp [kvApplyToBase]
  | (k, .removed) :: rest, m, es1, es2 => by
    have ih1 := kvApplyToBase_split rest
    cases hl : lookupA m k <;> simp [kvApplyToBase, hl, ih1, List.append_assoc]
  | (k, .inserted v) :: rest, m, es1, es2 => by
    have ih1 := kvApplyToBase_split rest
    cases hl : lookupA m k <;> simp [kvApplyToBase, hl, ih1, List.append_assoc]
  | (k, .diff d) :: rest, m, es1, es2 => by
    have ih1 := kvApplyToBase_split rest
    have ih2 := applyToBase_split d
    cases hl : lookupA m k <;> simp [kvApplyToBase, hl, ih1, ih2, List.append_assoc]

/-- Append-splitting for the field-wise apply of aggregate patches. -/
theorem fieldsApplyToBase_split :
    ∀ (ds : List Diff) (fs : List Value) (es1 es2 : List ApplyError),
    fieldsApplyToBase ds fs (es1 ++ es2)
      = ((fieldsApplyToBase ds fs es2).1, es1 ++ (fieldsApplyToBase ds fs es2).2)
  | [], fs, es1, es2 => by simp [fieldsApplyToBase]
  | d :: ds, [], es1, es2 => by simp [fieldsApplyToBase]
  | d :: ds, f :: fs, es1, es2 => by
    have ih1 := fieldsApplyToBase_split ds
    have ih2 := applyToBase_split d
    simp [fieldsApplyToBase, ih1, ih2, List.append_assoc]
end

/-- The sink-threading property at an initially empty sink: running with
sink `es` produces the value of the fresh run and appends the fresh run's
errors to `es`. -/
theorem applyToBase_append (d : Diff) (v : Value) (es : List ApplyError) :
    applyToBase d v es = ((applyToBase d v []).1, es ++ (applyToBase d v []).2) := by
  have h := applyToBase_split d v es []
  simpa using h

-- *** Reflexivity of equality and of the no-op diff ***

theorem beqKvs_all (other : List (Int × Value)) :
    ∀ l, (∀ p ∈ l, ∃ w, lookupA other p.1 = some w ∧ beq p.2 w = true) →
    beqKvs other l = true := by
  intro l
  induction l with
  | nil => intro _; simp [beqKvs]
  | cons p rest ih =>
    intro h
    obtain ⟨k, v⟩ := p
    obtain ⟨w, hw, hb⟩ := h (k, v) (by simp)
    simp only [beqKvs, hw, hb, Bool.true_and]
    exact ih (fun q hq => h q (by simp [hq]))

mutual
/-- Rust equality is reflexive on well-formed, NaN-free values. -/
theorem beq_refl : ∀ v, wfV v = true → nanFree v = true → beq v v = true
  | .vint a, _, _ => by simp [beq]
  | .vbool a, _, _ => by simp [beq]
  | .vstr a, _, _ => by simp [beq]
  | .vfloat (.num q), _, _ => by simp [beq, F64.beq]
  | .vfloat .nan, _, hn => by simp [nanFree] at hn
  | .vunit, _, _ => by simp [beq]
  | .vvec xs, hw, hn => by
    simp only [wfV] at hw
    simp only [nanFree] at hn
    simpa [beq] using beqList_refl xs hw hn
  | .vopt none, _, _ => by simp [beq]
  | .vopt (some v), hw, hn => by
    simp only [wfV] at hw
    simp only [nanFree] at hn
    simpa [beq] using beq_refl v hw hn
  | .vbox v, hw, hn => by
    simp only [wfV] at hw
    simp only [nanFree] at hn
    simpa [beq] using beq_refl v hw hn
  | .vmap m, hw, hn => by
    simp only [wfV, Bool.and_eq_true] at hw
    simp only [nanFree] at hn
    have hvals := beqKvs_vals_refl m hw.2 hn
    simp only [beq, beq_self_eq_true, Bool.true_and]
    refine beqKvs_all m m ?_
    intro p hp
    refine ⟨p.2, ?_, hvals p hp⟩
    obtain ⟨k, v⟩ := p
    exact lookupA_eq_of_mem_nodup hw.1 hp
  | .vtup a b, hw, hn => by
    simp only [wfV, Bool.and_eq_true] at hw
    simp only [nanFree, Bool.and_eq_true] at hn
    simp [beq, beq_refl a hw.1 hn.1, beq_refl b hw.2 hn.2]
  | .vstrukt fs, hw, hn => by
    simp only [wfV] at hw
    simp only [nanFree] at hn
    simpa [beq] using beqList_refl fs hw hn
  | .venum i fs, hw, hn => by
    simp only [wfV] at hw
    simp only [nanFree] at hn
    simp [beq, beqList_refl fs hw hn]

/-- Element-wise reflexivity for lists of values. -/
theorem beqList_refl : ∀ l, wfList l = true → nanFreeList l = true →
    beqList l l = true
  | [], _, _ => by simp [beqList]
  | v :: rest, hw, hn => by
    simp only [wfList, Bool.and_eq_true] at hw
    simp only [nanFreeList, Bool.and_eq_true] at hn
    simp [beqList, beq_refl v hw.1 hn.1, beqList_refl rest hw.2 hn.2]

/-- Reflexivity for every value stored in a map. -/
theorem beqKvs_vals_refl : ∀ m, wfKvs m = true → nanFreeKvs m = true →
    ∀ p ∈ m, beq p.2 p.2 = true
  | [], _, _ => by simp
  | (k, v) :: rest, hw, hn => by
    simp only [wfKvs, Bool.and_eq_true] at hw
    simp only [nanFreeKvs, Bool.and_eq_true] at hn
    intro p hp
    rcases List.mem_cons.mp hp with h | h
    · subst h; exact beq_refl v hw.1 hn.1
    · exact beqKvs_vals_refl rest hw.2 hn.2 p h
end

set_option maxHeartbeats 1000000

mutual
/-- Diffing a well-formed, NaN-free value against itself always yields the
unchanged result, in the sense of the library's own `is_unchanged`. -/
theorem diff_self : ∀ v, wfV v = true → nanFree v = true →
    isUnchanged (diff v v) = true
  | .vint a, _, _ => by simp [diff, isUnchanged]
  | .vbool a, _, _ => by simp [diff, isUnchanged]
  | .vstr a, _, _ => by simp [diff, isUnchanged]
  | .vfloat (.num q), _, _ => by simp [diff, F64.beq, isUnchanged]
  | .vfloat .nan, _, hn => by simp [nanFree] at hn
  | .vunit, _, _ => by simp [diff, isUnchanged]
  | .vvec xs, hw, hn => by
    simp only [wfV] at hw
    simp only [nanFree] at hn
    simp [diff, beqList_refl xs hw hn, isUnchanged]
  | .vopt none, _, _ => by simp [diff, isUnchanged]
  | .vopt (some v), hw, hn => by
    simp only [wfV] at hw
    simp only [nanFree] at hn
    simp [diff, diff_self v hw hn, isUnchanged]
  | .vbox v, hw, hn => by
    simp only [wfV] at hw
    simp only [nanFree] at hn
    simp [diff, isUnchanged, diff_self v hw hn]
  | .vmap m, hw, hn => by
    simp only [wfV, Bool.and_eq_true] at hw
    simp only [nanFree] at hn
    have hvals := diffKvs_vals_self m hw.2 hn
    have hall : m.all (entryUnchanged m) = true := by
      rw [List.all_eq_true]
      intro p hp
      obtain ⟨k, v⟩ := p
      have hl : lookupA m k = some v := lookupA_eq_of_mem_nodup hw.1 hp
      simpa [entryUnchanged, hl] using hvals _ hp
    have hu : (mapDiffGo m m [] true true).2.1 = true := by
      rw [mapDiffGo_allU m m [] true true, hall]
      simp
    have hrw : diff (.vmap m) (.vmap m)
        = (let s := mapDiffGo m m [] true true;
           let s2 := mapInsLoop m m s.1 s.2.1 s.2.2;
           if s2.2.1 then .deepUnchanged
           else if s2.2.2 then .deepReplaced (.vmap m)
           else .deepPatched (.map s2.1)) := by
      simp only [diff]
    rw [hrw]
    simp only [mapInsLoop_self]
    rw [hu]
    simp [isUnchanged]
  | .vtup a b, hw, hn => by
    simp only [wfV, Bool.and_eq_true] at hw
    simp only [nanFree, Bool.and_eq_true] at hn
    simp [diff, isUnchanged, diff_self a hw.1 hn.1, diff_self b hw.2 hn.2]
  | .vstrukt fs, hw, hn => by
    simp only [wfV] at hw
    simp only [nanFree] at hn
    simp [diff, diffFields_self fs hw hn, isUnchanged]
  | .venum i fs, hw, hn => by
    simp only [wfV] at hw
    simp only [nanFree] at hn
    simp [diff, diffFields_self fs hw hn, isUnchanged]

/-- All field-wise self-diffs of an aggregate are unchanged. -/
theorem diffFields_self : ∀ l, wfList l = true → nanFreeList l = true →
    (diffFields l l).all isUnchanged = true
  | [], _, _ => by simp [diffFields]
  | v :: rest, hw, hn => by
    simp only [wfList, Bool.and_eq_true] at hw
    simp only [nanFreeList, Bool.and_eq_true] at hn
    simp [diffFields, diff_self v hw.1 hn.1, diffFields_self rest hw.2 hn.2]

/-- Self-diffs of every value stored in a map are unchanged. -/
theorem diffKvs_vals_self : ∀ m, wfKvs m = true → nanFreeKvs m = true →
    ∀ p ∈ m, isUnchanged (diff p.2 p.2) = true
  | [], _, _ => by simp
  | (k, v) :: rest, hw, hn => by
    simp only [wfKvs, Bool.and_eq_true] at hw
    simp only [nanFreeKvs, Bool.and_eq_true] at hn
    intro p hp
    rcases List.mem_cons.mp hp with h | h
    · subst h; exact diff_self v hw.1 hn.1
    · exact diffKvs_vals_self rest hw.2 hn.2 p h
end

-- *** The aggregate fold (derived struct and tuple-struct diffs) ***

theorem diffFields_length : ∀ (fs gs : List Value), fs.length = gs.length →
    (diffFields fs gs).length = fs.length
  | [], [], _ => by simp [diffFields]
  | f :: fs, g :: gs, h => by
    simp only [List.length_cons, Nat.add_right_cancel_iff] at h
    simp [diffFields, diffFields_length fs gs h]
  | [], g :: gs, h => by simp at h
  | f :: fs, [], h => by simp at h

theorem all_isUnchanged_false_of_replaced (ds : List Diff) (hne : ds ≠ [])
    (hr : ds.all isReplaced = true) : ds.all isUnchanged = false := by
  cases ds with
  | nil => exact absurd rfl hne
  | cons d rest =>
    simp only [List.all_cons, Bool.and_eq_true] at hr
    have h := isReplaced_not_isUnchanged d hr.1
    simp [List.all_cons, h]

theorem strukt_diff_eq (fs gs : List Value) :
    diff (.vstrukt fs) (.vstrukt gs)
      = (let ds := diffFields fs gs;
         if ds.all isUnchanged then .deepUnchanged
         else if ds.all isReplaced then .deepReplaced (.vstrukt gs)
         else .deepPatched (.strukt ds)) := by
  simp only [diff]

theorem strukt_diff_unchanged (fs gs : List Value)
    (h : (diffFields fs gs).all isUnchanged = true) :
    diff (.vstrukt fs) (.vstrukt gs) = .deepUnchanged := by
  rw [strukt_diff_eq]
  simp [h]

theorem strukt_diff_replaced (fs gs : List Value) (hne : fs ≠ [])
    (hlen : fs.length = gs.length)
    (hr : (diffFields fs gs).all isReplaced = true) :
    diff (.vstrukt fs) (.vstrukt gs) = .deepReplaced (.vstrukt gs) := by
  have hnil : diffFields fs gs ≠ [] := by
    intro he
    have hl := diffFields_length fs gs hlen
    rw [he] at hl
    cases fs with
    | nil => exact hne rfl
    | cons a l => simp at hl
  have hu := all_isUnchanged_false_of_replaced _ hnil hr
  rw [strukt_diff_eq]
  simp [hu, hr]

theorem strukt_diff_patched (fs gs : List Value)
    (h1 : (diffFields fs gs).all isUnchanged = false)
    (h2 : (diffFields fs gs).all isReplaced = false) :
    diff (.vstrukt fs) (.vstrukt gs)
      = .deepPatched (.strukt (diffFields fs gs)) := by
  rw [strukt_diff_eq]
  simp [h1, h2]

-- *** The recorded entries never contain an insertion ***

theorem mem_insertA {m : List (Int × α)} {k : Int} {v : α} :
    ∀ p ∈ insertA m k v, p ∈ m ∨ p = (k, v) := by
  induction m with
  | nil =>
    intro p hp
    simp only [insertA, List.mem_singleton] at hp
    exact Or.inr hp
  | cons q rest ih =>
    obtain ⟨k2, w⟩ := q
    intro p hp
    by_cases h : k = k2
    · subst h
      simp only [insertA, beq_self_eq_true, if_true] at hp
      rcases List.mem_cons.mp hp with h1 | h1
      · exact Or.inr h1
      · exact Or.inl (List.mem_cons.mpr (Or.inr h1))
    · simp only [insertA, beq_iff_eq, if_neg h] at hp
      rcases List.mem_cons.mp hp with h1 | h1
      · exact Or.inl (List.mem_cons.mpr (Or.inl h1))
      · rcases ih p h1 with h2 | h2
        · exact Or.inl (List.mem_cons.mpr (Or.inr h2))
        · exact Or.inr h2

theorem mapDiffGo_no_inserted (other : List (Int × Value)) :
    ∀ (l : List (Int × Value)) (ds : List (Int × KvDiff)) (u r : Bool),
    ds.all (fun p => !(isInsertedKv p.2)) = true →
    (mapDiffGo other l ds u r).1.all (fun p => !(isInsertedKv p.2)) = true := by
  intro l
  induction l with
  | nil => intro ds u r h; simpa [mapDiffGo] using h
  | cons p rest ih =>
    intro ds u r h
    obtain ⟨k, v⟩ := p
    simp only [mapDiffGo]
    have hins : ∀ e : KvDiff, isInsertedKv e = false →
        (insertA ds k e).all (fun p => !(isInsertedKv p.2)) = true := by
      intro e he
      rw [List.all_eq_true] at h ⊢
      intro q hq
      rcases mem_insertA q hq with h1 | h1
      · exact h q h1
      · rw [h1]; simp [he]
    cases hl : lookupA other k with
    | none => exact ih _ _ _ (hins .removed (by simp [isInsertedKv]))
    | some w =>
      show ((if isUnchanged (diff v w) = true then mapDiffGo other rest ds u false
          else mapDiffGo other rest (insertA ds k (.diff (diff v w))) false
            (r && isReplaced (diff v w))).1.all fun p => !isInsertedKv p.2) = true
      by_cases hu : isUnchanged (diff v w) = true
      · rw [if_pos hu]; exact ih _ _ _ h
      · rw [if_neg hu]
        exact ih _ _ _ (hins (.diff (diff v w)) (by simp [isInsertedKv]))

-- *** Claim theorems ***

/-- Claim C1: round-trip correctness fails on the code.  With base the empty
map and target a one-entry map, the diff comes out `Unchanged` (the
inserted-keys loop of `kv_map_impl` tests `other.contains_key` against the
target itself, so it never emits an `Inserted` entry), the top-level apply
succeeds without changing the base, and the result is not equal to the
target. -/
theorem spec_c1_roundtrip_fails :
    diff (.vmap []) (.vmap [(0, .vint 1)]) = .deepUnchanged
    ∧ applyDiff (.vmap []) (diff (.vmap []) (.vmap [(0, .vint 1)])) = .ok (.vmap [])
    ∧ beq (.vmap []) (.vmap [(0, .vint 1)]) = false := by
  refine ⟨?_, ?_, ?_⟩ <;>
    simp [diff, mapDiffGo, mapInsLoop, containsKey, lookupA, applyDiff,
      applyToBase, beq]

/-- Claim C2: the map diff never emits an `Inserted` entry for any pair of
maps (the loop that should do so is dead code), and concretely, diffing a
base against a target holding one extra key records nothing, yields
`Unchanged`, and applying it does not add the key. -/
theorem spec_c2_inserted_never_emitted :
    (∀ (m mt : List (Int × Value)),
      (mapRecorded m mt).all (fun p => !(isInsertedKv p.2)) = true)
    ∧ mapRecorded [(5, .vint 7)] [(5, .vint 7), (0, .vint 1)] = []
    ∧ diff (.vmap [(5, .vint 7)]) (.vmap [(5, .vint 7), (0, .vint 1)])
        = .deepUnchanged
    ∧ applyDiff (.vmap [(5, .vint 7)])
        (diff (.vmap [(5, .vint 7)]) (.vmap [(5, .vint 7), (0, .vint 1)]))
        = .ok (.vmap [(5, .vint 7)]) := by
  refine ⟨?_, ?_, ?_, ?_⟩
  · intro m mt
    rw [mapRecorded_eq]
    exact mapDiffGo_no_inserted mt m [] true true (by simp)
  all_goals
    simp [mapRecorded, diff, mapDiffGo, mapInsLoop, containsKey, lookupA,
      insertA, isUnchanged, applyDiff, applyToBase]

/-- Claim C3, counterexample: diffing a one-entry base against an empty
target records a single `Removed` entry, yet the aggregate result is
`Patched`, not `Replaced` — a recorded removal clears the `all_replaced`
flag instead of counting as replaced. -/
theorem spec_c3_cex :
    mapRecorded [(0, .vint 1)] [] = [(0, .removed)]
    ∧ diff (.vmap [(0, .vint 1)]) (.vmap [])
        = .deepPatched (.map [(0, .removed)])
    ∧ diff (.vmap [(0, .vint 1)]) (.vmap []) ≠ .deepReplaced (.vmap []) := by
  refine ⟨?_, ?_, ?_⟩ <;>
    simp [mapRecorded, diff, mapDiffGo, mapInsLoop, lookupA, insertA,
      containsKey]

/-- Claim C3 (amended): the map diff is `Unchanged` exactly when no entry was
recorded; when entries were recorded it is `Replaced(ref target)` exactly
when every base entry's value was found in the target and diffed to a
recorded, fully-replaced child (a `Removed` entry therefore forces
`Patched`, and `Inserted` entries are never recorded); otherwise it is
`Patched` with the recorded entry map. -/
theorem spec_c3_amended :
    ∀ (m mt : List (Int × Value)), nodupKeysB m = true →
    (diff (.vmap m) (.vmap mt) = .deepUnchanged ↔ mapRecorded m mt = [])
    ∧ (mapRecorded m mt ≠ [] →
      (diff (.vmap m) (.vmap mt) = .deepReplaced (.vmap mt)
        ↔ m.all (entryReplaced mt) = true))
    ∧ (mapRecorded m mt ≠ [] → m.all (entryReplaced mt) = false →
      diff (.vmap m) (.vmap mt) = .deepPatched (.map (mapRecorded m mt))) := by
  intro m mt hnd
  have hrw : diff (.vmap m) (.vmap mt)
      = (if m.all (entryUnchanged mt) then Diff.deepUnchanged
         else if m.all (entryReplaced mt) then Diff.deepReplaced (.vmap mt)
         else Diff.deepPatched (.map (mapRecorded m mt))) := by
    have h0 : diff (.vmap m) (.vmap mt)
        = (let s := mapDiffGo mt m [] true true;
           let s2 := mapInsLoop mt mt s.1 s.2.1 s.2.2;
           if s2.2.1 then Diff.deepUnchanged
           else if s2.2.2 then Diff.deepReplaced (.vmap mt)
           else Diff.deepPatched (.map s2.1)) := by
      simp only [diff]
    rw [h0]
    simp only [mapInsLoop_self]
    rw [mapDiffGo_allU mt m [] true true, mapDiffGo_allR mt m [] true true,
      ← mapRecorded_eq]
    rfl
  by_cases hU : m.all (entryUnchanged mt) = true
  · have hrec : mapRecorded m mt = [] := by
      rw [mapRecorded_eq]
      exact mapDiffGo_entries_of_allU mt m [] true true hU
    rw [hrw]
    refine ⟨by simp [hU, hrec], ?_, ?_⟩
    · intro hne; exact absurd hrec hne
    · intro hne; exact absurd hrec hne
  · have hU' : m.all (entryUnchanged mt) = false := by simpa using hU
    have hrecne : mapRecorded m mt ≠ [] := by
      rw [mapRecorded_eq]
      have hlt := mapDiffGo_entries_ne_of_not_allU mt m [] true true hnd
        (by intro p hp; simp [containsKey, lookupA]) hU'
      intro he
      rw [he] at hlt
      simp at hlt
    rw [hrw]
    refine ⟨?_, ?_, ?_⟩
    · constructor
      · intro h
        by_cases hR : m.all (entryReplaced mt) = true <;> simp [hU', hR] at h
      · intro h; exact absurd h hrecne
    · intro _
      constructor
      · intro h
        by_cases hR : m.all (entryReplaced mt) = true
        · exact hR
        · simp [hU', hR] at h
      · intro hR; simp [hU', hR]
    · intro _ hR
      simp [hU', hR]

/-- Claim C3, witness: the amended characterization applied to the
one-removal counterexample input. -/
theorem spec_c3_amended_witness :
    nodupKeysB ([(0, Value.vint 1)] : List (Int × Value)) = true
    ∧ mapRecorded [(0, .vint 1)] [] ≠ []
    ∧ ([(0, Value.vint 1)] : List (Int × Value)).all (entryReplaced []) = false
    ∧ diff (.vmap [(0, .vint 1)]) (.vmap [])
        = .deepPatched (.map (mapRecorded [(0, .vint 1)] [])) := by
  have h1 : nodupKeysB ([(0, Value.vint 1)] : List (Int × Value)) = true := by
    simp [nodupKeysB, containsKey, lookupA]
  have h2 : mapRecorded [(0, Value.vint 1)] [] = [(0, KvDiff.removed)] := by
    simp [mapRecorded, mapDiffGo, mapInsLoop, lookupA, insertA, containsKey]
  have h3 : ([(0, Value.vint 1)] : List (Int × Value)).all (entryReplaced [])
      = false := by
    simp [entryReplaced, lookupA]
  refine ⟨h1, by simp [h2], h3, ?_⟩
  exact (spec_c3_amended [(0, .vint 1)] [] h1).2.2 (by simp [h2]) h3

/-- Claim C4, counterexample: applying an `Inserted` entry for a key that is
already present records `UnexpectedKey` but DOES overwrite the stored value
(`HashMap::insert` replaces and returns the old value). -/
theorem spec_c4_cex :
    patchApplyToBase (.map [(0, .inserted (.vint 2))]) (.vmap [(0, .vint 1)]) []
      = (.vmap [(0, .vint 2)], [.UnexpectedKey])
    ∧ lookupA [(0, Value.vint 2)] 0 ≠ some (Value.vint 1) := by
  constructor
  · simp [patchApplyToBase, kvApplyToBase, lookupA, insertA]
  · simp [lookupA]

/-- Claim C4 (amended): when the key of an `Inserted` entry is already
present, the apply step records `UnexpectedKey` and overwrites the stored
value with the patch's value. -/
theorem spec_c4_amended :
    ∀ (m : List (Int × Value)) (k : Int) (v w : Value)
      (rest : List (Int × KvDiff)) (es : List ApplyError),
    lookupA m k = some w →
    kvApplyToBase ((k, .inserted v) :: rest) m es
      = kvApplyToBase rest (insertA m k v) (es ++ [.UnexpectedKey])
    ∧ lookupA (insertA m k v) k = some v := by
  intro m k v w rest es hl
  constructor
  · simp [kvApplyToBase, hl]
  · exact lookupA_insertA_self m k v

/-- Claim C4, witness: the amended statement applied at a present key. -/
theorem spec_c4_amended_witness :
    lookupA [(0, Value.vint 1)] 0 = some (Value.vint 1)
    ∧ kvApplyToBase [(0, KvDiff.inserted (Value.vint 2))] [(0, Value.vint 1)] []
        = kvApplyToBase [] (insertA [(0, Value.vint 1)] 0 (Value.vint 2))
            ([] ++ [ApplyError.UnexpectedKey])
    ∧ lookupA (insertA [(0, Value.vint 1)] 0 (Value.vint 2)) 0
        = some (Value.vint 2) := by
  refine ⟨by simp [lookupA], ?_, ?_⟩
  · exact (spec_c4_amended [(0, Value.vint 1)] 0 (Value.vint 2) (Value.vint 1)
      [] [] (by simp [lookupA])).1
  · exact (spec_c4_amended [(0, Value.vint 1)] 0 (Value.vint 2) (Value.vint 1)
      [] [] (by simp [lookupA])).2

/-- Claim C5: the derived aggregate diff is `Unchanged` when every child
diff is unchanged; `Replaced(ref target)` when every child diff is replaced
(for a nonempty field list — with zero fields the all-unchanged rule fires
first, per the else-if ordering of the generated code); otherwise `Patched`
carrying exactly one entry per child, unchanged children included. -/
theorem spec_c5_aggregate_fold :
    ∀ (fs gs : List Value), fs.length = gs.length →
    ((diffFields fs gs).all isUnchanged = true →
      diff (.vstrukt fs) (.vstrukt gs) = .deepUnchanged)
    ∧ (fs ≠ [] → (diffFields fs gs).all isReplaced = true →
      diff (.vstrukt fs) (.vstrukt gs) = .deepReplaced (.vstrukt gs))
    ∧ ((diffFields fs gs).all isUnchanged = false →
        (diffFields fs gs).all isReplaced = false →
      diff (.vstrukt fs) (.vstrukt gs)
        = .deepPatched (.strukt (diffFields fs gs)))
    ∧ (diffFields fs gs).length = fs.length := by
  intro fs gs hlen
  exact ⟨strukt_diff_unchanged fs gs,
    fun hne hr => strukt_diff_replaced fs gs hne hlen hr,
    strukt_diff_patched fs gs,
    diffFields_length fs gs hlen⟩

/-- Claim C5, witness: a two-field aggregate with one changed field lands in
the `Patched` case with one entry per child. -/
theorem spec_c5_aggregate_fold_witness :
    ([Value.vint 0, Value.vint 1].length = [Value.vint 0, Value.vint 2].length)
    ∧ (diffFields [.vint 0, .vint 1] [.vint 0, .vint 2]).all isUnchanged = false
    ∧ (diffFields [.vint 0, .vint 1] [.vint 0, .vint 2]).all isReplaced = false
    ∧ diff (.vstrukt [.vint 0, .vint 1]) (.vstrukt [.vint 0, .vint 2])
        = .deepPatched (.strukt (diffFields [.vint 0, .vint 1] [.vint 0, .vint 2])) := by
  refine ⟨rfl, ?_, ?_, ?_⟩
  · simp [diffFields, diff, isUnchanged]
  · simp [diffFields, diff, isReplaced]
  · exact (spec_c5_aggregate_fold [.vint 0, .vint 1] [.vint 0, .vint 2] rfl).2.2.1
      (by simp [diffFields, diff, isUnchanged])
      (by simp [diffFields, diff, isReplaced])

/-- Claim C6: diffing two enum values holding different variants yields
`Replaced(ref target)`, and applying an enum patch built for one variant to
a target holding a different variant appends exactly one `MismatchingEnum`
error and leaves the target unmutated. -/
theorem spec_c6_enum_mismatch :
    ∀ (i j : Nat) (xs ys : List Value) (ds : List Diff) (es : List ApplyError),
    i ≠ j →
    diff (.venum i xs) (.venum j ys) = .deepReplaced (.venum j ys)
    ∧ patchApplyToBase (.enum i ds) (.venum j ys) es
        = (.venum j ys, es ++ [.MismatchingEnum]) := by
  intro i j xs ys ds es hij
  constructor
  · simp [diff, hij]
  · simp [patchApplyToBase, hij]

/-- Claim C6, witness: variants 0 and 1. -/
theorem spec_c6_enum_mismatch_witness :
    ((0 : Nat) ≠ 1)
    ∧ diff (.venum 0 []) (.venum 1 []) = .deepReplaced (.venum 1 [])
    ∧ patchApplyToBase (.enum 0 []) (.venum 1 []) []
        = (.venum 1 [], [ApplyError.MismatchingEnum]) := by
  refine ⟨by decide, ?_, ?_⟩
  · exact (spec_c6_enum_mismatch 0 1 [] [] [] [] (by decide)).1
  · have h := (spec_c6_enum_mismatch 0 1 [] [] [] [] (by decide)).2
    simpa using h

/-- Claim C7: apply threads one shared error sink — running with a
pre-populated sink returns the same value as a fresh run and appends the
fresh run's complete error list; the top-level apply returns success exactly
when the accumulated list is empty and otherwise returns the full
collection. -/
theorem spec_c7_error_accumulation :
    ∀ (d : Diff) (v : Value) (es : List ApplyError),
    applyToBase d v es = ((applyToBase d v []).1, es ++ (applyToBase d v []).2)
    ∧ applyDiff v d
        = (if (applyToBase d v []).2 = []
           then Except.ok (applyToBase d v []).1
           else Except.error (applyToBase d v []).2) := by
  intro d v es
  refine ⟨applyToBase_append d v es, ?_⟩
  by_cases h : (applyToBase d v []).2 = [] <;> simp [applyDiff, h]

/-- Claim C8, counterexample: `f64` is a diffable primitive whose diff uses
IEEE equality, so diffing NaN against itself yields `Replaced`, not
`Unchanged`. -/
theorem spec_c8_cex :
    diff (.vfloat .nan) (.vfloat .nan) = .atomicReplaced (.vfloat .nan)
    ∧ isUnchanged (diff (.vfloat .nan) (.vfloat .nan)) = false := by
  constructor <;> simp [diff, F64.beq, isUnchanged]

/-- Claim C8 (amended): for every well-formed value containing no `f64` NaN,
diffing the value against itself yields the unchanged result, in the sense
of the library's own `is_unchanged` predicate (literally the `Unchanged`
variant for atomic and deep diffs, and the all-unchanged marker tuple for
tuple diffs). -/
theorem spec_c8_amended :
    ∀ v : Value, wfV v = true → nanFree v = true →
    isUnchanged (diff v v) = true :=
  diff_self

/-- Claim C8, witness: a one-entry map value. -/
theorem spec_c8_amended_witness :
    wfV (.vmap [(0, .vint 1)]) = true
    ∧ nanFree (.vmap [(0, .vint 1)]) = true
    ∧ isUnchanged (diff (.vmap [(0, .vint 1)]) (.vmap [(0, .vint 1)])) = true := by
  have h1 : wfV (Value.vmap [(0, .vint 1)]) = true := by
    simp [wfV, wfKvs, nodupKeysB, containsKey, lookupA]
  have h2 : nanFree (Value.vmap [(0, .vint 1)]) = true := by
    simp [nanFree, nanFreeKvs]
  exact ⟨h1, h2, spec_c8_amended _ h1 h2⟩

/-- Claim C9, counterexample: an aggregate whose single field differs (the
field values are not equal) but whose child diff is only `Patched` — the
aggregate diff is `Patched`, not `Replaced`, so "every field differs" does
not imply collapse. -/
theorem spec_c9_cex :
    beq (.vstrukt [.vint 0, .vint 0]) (.vstrukt [.vint 0, .vint 1]) = false
    ∧ diff (.vstrukt [.vstrukt [.vint 0, .vint 0]])
        (.vstrukt [.vstrukt [.vint 0, .vint 1]])
        = .deepPatched (.strukt [.deepPatched (.strukt
            [.atomicUnchanged, .atomicReplaced (.vint 1)])])
    ∧ diff (.vstrukt [.vstrukt [.vint 0, .vint 0]])
        (.vstrukt [.vstrukt [.vint 0, .vint 1]])
        ≠ .deepReplaced (.vstrukt [.vstrukt [.vint 0, .vint 1]]) := by
  refine ⟨?_, ?_, ?_⟩ <;>
    simp [beq, beqList, diff, diffFields, isUnchanged, isReplaced]

/-- Claim C9 (amended): when every field's child diff is a full replacement
(and the aggregate has at least one field), the aggregate diff collapses to
`Replaced`, not `Patched`; for aggregates of leaf-typed fields this is
exactly "every field differs". -/
theorem spec_c9_amended :
    ∀ (fs gs : List Value), fs ≠ [] → fs.length = gs.length →
    (diffFields fs gs).all isReplaced = true →
    diff (.vstrukt fs) (.vstrukt gs) = .deepReplaced (.vstrukt gs) :=
  fun fs gs hne hlen hr => strukt_diff_replaced fs gs hne hlen hr

/-- Claim C9, witness: a one-field aggregate of a leaf type with a differing
value. -/
theorem spec_c9_amended_witness :
    ([Value.vint 0] ≠ ([] : List Value))
    ∧ (diffFields [.vint 0] [.vint 1]).all isReplaced = true
    ∧ diff (.vstrukt [.vint 0]) (.vstrukt [.vint 1])
        = .deepReplaced (.vstrukt [.vint 1]) := by
  refine ⟨by simp, by simp [diffFields, diff, isReplaced], ?_⟩
  exact spec_c9_amended [.vint 0] [.vint 1] (by simp) rfl
    (by simp [diffFields, diff, isReplaced])

/-- Claim C10: applying a `Patched` option diff (which the diff construction
only ever builds with a `Some` child) to a target currently holding `None`
records `MismatchingEnum` and leaves the target `None`; the option apply
never inserts a value on behalf of a patch. -/
theorem spec_c10_option_apply :
    (∀ (d : Diff) (es : List ApplyError),
      patchApplyToBase (.opt (some d)) (.vopt none) es
        = (.vopt none, es ++ [.MismatchingEnum]))
    ∧ ∀ (o p : Option Value),
      diff (.vopt o) (.vopt p) ≠ .deepPatched (.opt none) := by
  constructor
  · intro d es
    simp [patchApplyToBase]
  · intro o p
    cases o <;> cases p <;> simp only [diff] <;> intro h
    case none.none => simp at h
    case none.some b => simp at h
    case some.none a => simp at h
    case some.some a b =>
      split at h
      · simp at h
      · split at h
        · simp at h
        · simp at h

/-- Claim C10, witness: both statements at concrete inputs. -/
theorem spec_c10_option_apply_witness :
    patchApplyToBase (.opt (some .atomicUnchanged)) (.vopt none) []
      = (.vopt none, [ApplyError.MismatchingEnum])
    ∧ diff (.vopt none) (.vopt none) ≠ .deepPatched (.opt none) := by
  constructor
  · have h := spec_c10_option_apply.1 .atomicUnchanged []
    simpa using h
  · exact spec_c10_option_apply.2 none none
